import Mathlib

/-!
Verification of the cross-reference analysis tool
(`agentaskit-production/tools/analysis/cross_reference.py`).

The Python program is embedded shallowly:

* A Python `dict` built by iteration is modelled as an association list in
  insertion order; the program's trees are keyed by relative path, which
  `Path.rglob` yields at most once, so the lists carry each key once.
* SHA-256 hex digests are modelled by an arbitrary function
  `H : List Nat → String` over file bytes; `compute_file_hash` returns
  `H bytes` on a readable file and `""` on a read failure, exactly as the
  source returns `hashlib.sha256(data).hexdigest()` or `""`.
* Filesystem state is explicit: a `Root` is a directory path, an existence
  flag (`Path.exists`) and the list of regular files `rglob` would yield,
  each with relative path, size, optional byte content (`none` = read
  error) and modification-time string.  The existence checks of
  `_find_missing` are an explicit predicate on paths under the production
  root.  `datetime.now().isoformat()` is an explicit timestamp argument.
* Strings are plain Lean `String`s; Python's `in` substring test,
  `sorted`, `Path.suffix` and `Path.name` are implemented below on
  character lists.
-/

/-- Does `pre` occur at the front of `l`?  (Helper for substring search.) -/
def leadsOf : List Char → List Char → Bool
  | [], _ => true
  | _ :: _, [] => false
  | a :: as, b :: bs => a == b && leadsOf as bs

/-- Does `needle` occur as a contiguous run somewhere in the list? -/
def subIn (needle : List Char) : List Char → Bool
  | [] => leadsOf needle []
  | c :: rest => leadsOf needle (c :: rest) || subIn needle rest

/-- Python's `pat in hay` substring test on strings. -/
def strContains (hay pat : String) : Bool :=
  subIn pat.data hay.data

/-- Lexicographic code-point comparison, Python `<=` on strings. -/
def charListLe : List Char → List Char → Bool
  | [], _ => true
  | _ :: _, [] => false
  | a :: as, b :: bs => if a = b then charListLe as bs else decide (a < b)

/-- Insert a keyed element into a key-sorted association list. -/
def insertSorted {α : Type} (x : String × α) : List (String × α) → List (String × α)
  | [] => [x]
  | y :: ys => if charListLe x.1.data y.1.data then x :: y :: ys else y :: insertSorted x ys

/-- Python's `sorted` over an association list's keys (keys are unique in
the program, so stability is immaterial). -/
def sortByKey {α : Type} (l : List (String × α)) : List (String × α) :=
  l.foldr insertSorted []

/-- The run of characters starting at the last `'.'` of the list, if any
(Helper for Python's `Path.suffix`). -/
def pySuffixAux : List Char → Option (List Char)
  | [] => none
  | c :: rest =>
    match pySuffixAux rest with
    | some s => some s
    | none => if c = '.' then some (c :: rest) else none

/-- Python's `PurePath.suffix` on a file name: the part from the last dot,
provided the dot is neither the first nor the last character; else `""`. -/
def pySuffix (name : String) : String :=
  match pySuffixAux name.data with
  | none => ""
  | some s =>
    if s.length < name.data.length ∧ 2 ≤ s.length then String.mk s else ""

/-- Python's `PurePath.name` of a relative path: the component after the
last `'/'`. -/
def lastComponent (p : String) : String :=
  String.mk (p.data.foldl (fun acc c => if c = '/' then [] else acc ++ [c]) [])

/-- One file as the scanner sees it on disk: relative path under its root,
size, byte content (`none` when reading raises), and mtime string. -/
structure RawFile where
  relPath : String
  size : Nat
  content : Option (List Nat)
  modified : String
deriving DecidableEq, Repr

/-- One scanned root: `str(directory)`, `directory.exists()`, and the
regular files `rglob("*")` yields, in traversal order. -/
structure Root where
  rootPath : String
  present : Bool
  entries : List RawFile
deriving DecidableEq, Repr

/-- The per-file record built by `get_file_info`. -/
structure FileInfo where
  path : String
  name : String
  size : Nat
  hash : String
  extension : String
  modified : String
deriving DecidableEq, Repr

/-- One lineage record: archive version, archive path, content agreement. -/
structure LineageEntry where
  version : String
  path : String
  hash_match : Bool
deriving DecidableEq, Repr

/-- One location inside a duplicate group: source label and path. -/
structure Location where
  source : String
  path : String
deriving DecidableEq, Repr

/-- One group of files sharing a digest (digest shown truncated to 16). -/
structure DuplicateGroup where
  hash : String
  locations : List Location
deriving DecidableEq, Repr

/-- The structured report `_generate_report` builds (and serialises to
`report.json`; JSON serialisation of this record is deterministic, so two
runs write byte-identical files exactly when the records are equal). -/
structure Report where
  timestamp : String
  production_files : Nat
  archive_versions : Nat
  archive_files : Nat
  duplicates_found : Nat
  files_with_lineage : Nat
  missing_components : Nat
  duplicates : List DuplicateGroup
  lineage_sample : List (String × List LineageEntry)
  missing : List String
  critical_missing : List String
deriving DecidableEq, Repr

/-- `compute_file_hash`: SHA-256 hexdigest of the bytes, or `""` when the
read raises.  `H` stands for `hexdigest ∘ sha256`. -/
def compute_file_hash (H : List Nat → String) (content : Option (List Nat)) : String :=
  match content with
  | some bytes => H bytes
  | none => ""

/-- `get_file_info`: metadata record for one file. -/
def get_file_info (H : List Nat → String) (f : RawFile) : FileInfo :=
  { path := f.relPath
    name := lastComponent f.relPath
    size := f.size
    hash := compute_file_hash H f.content
    extension := pySuffix (lastComponent f.relPath)
    modified := f.modified }

/-- The hard-coded `skip_patterns` of `_should_skip`. -/
def skip_patterns : List String :=
  [".git", "__pycache__", ".pyc", "node_modules", "target/debug", "target/release", ".DS_Store"]

/-- `_should_skip`: any pattern occurs in `str(filepath)` (the path as the
scanner sees it, root segment included). -/
def should_skip (fullPath : String) : Bool :=
  skip_patterns.any (fun p => strContains fullPath p)

/-- `scan_directory`: empty when the root does not exist, else every
non-skipped regular file keyed by its relative path. -/
def scan_directory (H : List Nat → String) (r : Root) : List (String × FileInfo) :=
  if r.present then
    (r.entries.filter (fun f => !(should_skip (r.rootPath ++ "/" ++ f.relPath)))).map
      (fun f => (f.relPath, get_file_info H f))
  else []

/-- A scanned tree: relative path ↦ file record, in scan order. -/
abbrev ScanTree := List (String × FileInfo)

/-- The production-tree half of `_find_duplicates`'s hash map: one entry
per file with a non-empty digest, labelled `"production"`. -/
def prodEntries (prod : ScanTree) : List (String × Location) :=
  prod.filterMap (fun pi =>
    if pi.2.hash = "" then none else some (pi.2.hash, ⟨"production", pi.1⟩))

/-- The archive half of `_find_duplicates`'s hash map: per version in dict
order, one entry per file with a non-empty digest, labelled by version. -/
def dupEntries : List (String × ScanTree) → List (String × Location)
  | [] => []
  | (ver, files) :: rest =>
    files.filterMap (fun pi =>
      if pi.2.hash = "" then none else some (pi.2.hash, (⟨ver, pi.1⟩ : Location)))
    ++ dupEntries rest

/-- Record one location under its digest in the insertion-ordered hash map
(`defaultdict(list)` access in `_find_duplicates`). -/
def addToGroup : List (String × List Location) → String → Location → List (String × List Location)
  | [], h, loc => [(h, [loc])]
  | (h', ls) :: gs, h, loc =>
    if h' = h then (h', ls ++ [loc]) :: gs else (h', ls) :: addToGroup gs h loc

/-- The full `hash_to_files` map of `_find_duplicates`, keys in first-seen
order, each key's locations in insertion order. -/
def groupByHash (entries : List (String × Location)) : List (String × List Location) :=
  entries.foldl (fun acc e => addToGroup acc e.1 e.2) []

/-- `_find_duplicates`: groups of ≥ 2 same-digest locations across the
production tree and all archive trees, digest truncated to 16 characters. -/
def find_duplicates (prod : ScanTree) (archive : List (String × ScanTree)) : List DuplicateGroup :=
  (groupByHash (prodEntries prod ++ dupEntries archive)).filterMap (fun g =>
    if 1 < g.2.length then some (⟨g.1.take 16, g.2⟩ : DuplicateGroup) else none)

/-- The matches of one production file inside one archive version's tree
(the inner loop of `_trace_lineage`). -/
def versionMatches (pinfo : FileInfo) (ver : String) (files : ScanTree) : List LineageEntry :=
  files.filterMap (fun ai =>
    if ai.2.name = pinfo.name then
      some (⟨ver, ai.1, pinfo.hash == ai.2.hash⟩ : LineageEntry)
    else none)

/-- All lineage entries of one production file across the (sorted) archive
versions, in order (the outer loop of `_trace_lineage`). -/
def linFor (pinfo : FileInfo) : List (String × ScanTree) → List LineageEntry
  | [] => []
  | (ver, files) :: rest => versionMatches pinfo ver files ++ linFor pinfo rest

/-- `_trace_lineage`: production path ↦ its lineage entries, only for
files with at least one same-named archive file. -/
def trace_lineage (prod : ScanTree) (archive : List (String × ScanTree)) :
    List (String × List LineageEntry) :=
  prod.filterMap (fun pp =>
    if (linFor pp.2 (sortByKey archive)).isEmpty then none
    else some (pp.1, linFor pp.2 (sortByKey archive)))

/-- `expected_dirs` of `_find_missing`. -/
def expected_dirs : List String :=
  ["core/src", "services", "tests", "docs", "deploy", "security", "dashboards", "alerts", "slo"]

/-- `expected_files` of `_find_missing`. -/
def expected_files : List String :=
  ["Cargo.toml", "README.md", "CHANGELOG.md", ".todo"]

/-- `_find_missing`: a descriptor per expected directory or file absent
under the production root (`ex` is `Path.exists` under that root). -/
def find_missing (ex : String → Bool) : List String :=
  (expected_dirs.filter (fun d => !(ex d))).map (fun d => "directory: " ++ d)
  ++ (expected_files.filter (fun f => !(ex f))).map (fun f => "file: " ++ f)

/-- The criticality test of `_generate_report`:
`"core" in m or "security" in m`. -/
def isCritical (m : String) : Bool :=
  strContains m "core" || strContains m "security"

/-- `_generate_report`: the structured report over the analysis results. -/
def generate_report (ts : String) (prod : ScanTree) (archive : List (String × ScanTree))
    (dups : List DuplicateGroup) (lin : List (String × List LineageEntry))
    (missing : List String) : Report :=
  { timestamp := ts
    production_files := prod.length
    archive_versions := archive.length
    archive_files := (archive.map (fun va => va.2.length)).sum
    duplicates_found := dups.length
    files_with_lineage := lin.length
    missing_components := missing.length
    duplicates := dups.take 50
    lineage_sample := lin.take 20
    missing := missing
    critical_missing := missing.filter isCritical }

/-- `analyze`: scan production and the archive versions (the version list
as produced by `sorted(archive_dir.iterdir())`), run the three analyses,
and build the report.  `ts` is `datetime.now().isoformat()` at report
time. -/
def analyze (H : List Nat → String) (prodRoot : Root) (archiveRoots : List (String × Root))
    (ex : String → Bool) (ts : String) : Report :=
  let prod := scan_directory H prodRoot
  let archive := archiveRoots.map (fun vr => (vr.1, scan_directory H vr.2))
  generate_report ts prod archive
    (find_duplicates prod archive) (trace_lineage prod archive) (find_missing ex)

/-- `main`'s exit: `sys.exit(1 if report["critical_missing"] else 0)`. -/
def main_exit (report : Report) : Nat :=
  if report.critical_missing = [] then 0 else 1

/-! Helper lemmas about the string utilities. -/

theorem leadsOf_append (n t : List Char) :
    ∀ bs, leadsOf n bs = true → leadsOf n (bs ++ t) = true := by
  induction n with
  | nil => intro bs _; rfl
  | cons a as ih =>
    intro bs h
    cases bs with
    | nil => simp [leadsOf] at h
    | cons b bs' =>
      simp only [leadsOf, Bool.and_eq_true] at h
      simp only [List.cons_append, leadsOf, Bool.and_eq_true]
      exact ⟨h.1, ih bs' h.2⟩

theorem subIn_of_nil : ∀ t, subIn ([] : List Char) t = true := by
  intro t
  cases t <;> simp [subIn, leadsOf]

theorem subIn_append (n t : List Char) :
    ∀ cs, subIn n cs = true → subIn n (cs ++ t) = true := by
  intro cs
  induction cs with
  | nil =>
    intro h
    cases n with
    | nil => simpa using subIn_of_nil t
    | cons a as => simp [subIn, leadsOf] at h
  | cons c rest ih =>
    intro h
    simp only [subIn, Bool.or_eq_true] at h
    simp only [List.cons_append, subIn, Bool.or_eq_true]
    rcases h with h | h
    · exact Or.inl (leadsOf_append n t (c :: rest) h)
    · exact Or.inr (ih h)

theorem strContains_append (a b p : String) (h : strContains a p = true) :
    strContains (a ++ b) p = true := by
  unfold strContains at h ⊢
  rw [String.data_append]
  exact subIn_append p.data b.data a.data h

/-! Helper lemmas about `sortByKey` (the model of Python's `sorted`). -/

theorem perm_insertSorted {α : Type} (x : String × α) :
    ∀ l : List (String × α), List.Perm (insertSorted x l) (x :: l) := by
  intro l
  induction l with
  | nil => exact List.Perm.refl _
  | cons y ys ih =>
    simp only [insertSorted]
    cases hc : charListLe x.1.data y.1.data with
    | true => simp
    | false =>
      simp only [Bool.false_eq_true, if_false]
      exact (ih.cons y).trans (List.Perm.swap x y ys)

theorem perm_sortByKey {α : Type} (l : List (String × α)) :
    List.Perm (sortByKey l) l := by
  induction l with
  | nil => exact List.Perm.refl _
  | cons x xs ih =>
    show List.Perm (insertSorted x (sortByKey xs)) (x :: xs)
    exact (perm_insertSorted x _).trans (ih.cons x)

/-! Helper lemmas about `linFor` (the loops of `_trace_lineage`). -/

theorem mem_versionMatches {pinfo : FileInfo} {ver apath : String} {ainfo : FileInfo}
    {files : ScanTree} (hmem : (apath, ainfo) ∈ files) (hname : ainfo.name = pinfo.name) :
    (⟨ver, apath, pinfo.hash == ainfo.hash⟩ : LineageEntry) ∈ versionMatches pinfo ver files := by
  unfold versionMatches
  refine List.mem_filterMap.mpr ⟨(apath, ainfo), hmem, ?_⟩
  simp [hname]

theorem mem_linFor {pinfo : FileInfo} {ver apath : String} {ainfo : FileInfo} {atree : ScanTree} :
    ∀ l : List (String × ScanTree), (ver, atree) ∈ l → (apath, ainfo) ∈ atree →
      ainfo.name = pinfo.name →
      (⟨ver, apath, pinfo.hash == ainfo.hash⟩ : LineageEntry) ∈ linFor pinfo l := by
  intro l
  induction l with
  | nil => intro h; cases h
  | cons hd rest ih =>
    intro hl hmem hname
    rcases hd with ⟨v', t'⟩
    simp only [linFor, List.mem_append]
    rcases List.mem_cons.mp hl with heq | htail
    · left
      cases Prod.mk.inj heq with
      | intro h1 h2 => exact h1 ▸ h2 ▸ mem_versionMatches hmem hname
    · exact Or.inr (ih htail hmem hname)

theorem linFor_nil_of_no_match {pinfo : FileInfo} :
    ∀ l : List (String × ScanTree),
      (∀ ver atree, (ver, atree) ∈ l → ∀ ap ai, (ap, ai) ∈ atree → ai.name ≠ pinfo.name) →
      linFor pinfo l = [] := by
  intro l
  induction l with
  | nil => intro _; rfl
  | cons hd rest ih =>
    intro h
    rcases hd with ⟨v', t'⟩
    simp only [linFor, List.append_eq_nil]
    constructor
    · refine List.filterMap_eq_nil_iff.mpr ?_
      intro ai hai
      have := h v' t' (List.mem_cons_self _ _) ai.1 ai.2 hai
      simp [this]
    · exact ih (fun ver atree hm => h ver atree (List.mem_cons_of_mem _ hm))

theorem countP_versionMatches (pinfo : FileInfo) (ver v : String) (files : ScanTree) :
    (versionMatches pinfo ver files).countP (fun e => e.version == v)
      = if ver = v then files.countP (fun ai => ai.2.name == pinfo.name) else 0 := by
  induction files with
  | nil => simp [versionMatches]
  | cons a rest ih =>
    simp only [versionMatches, List.filterMap_cons] at ih ⊢
    by_cases hn : a.2.name = pinfo.name
    · rw [if_pos hn, List.countP_cons, ih]
      by_cases hv : ver = v
      · subst hv; simp [List.countP_cons, hn]
      · simp [hv]
    · rw [if_neg hn, ih]
      by_cases hv : ver = v
      · subst hv; simp [List.countP_cons, hn]
      · simp [hv]

theorem countP_linFor_zero {pinfo : FileInfo} (v : String) :
    ∀ l : List (String × ScanTree), v ∉ l.map Prod.fst →
      (linFor pinfo l).countP (fun e => e.version == v) = 0 := by
  intro l
  induction l with
  | nil => intro _; rfl
  | cons hd rest ih =>
    intro h
    rcases hd with ⟨v', t'⟩
    have hv' : v' ≠ v := by
      intro he; exact h (by simp [he])
    have hrest : v ∉ rest.map Prod.fst := fun hm => h (by simp [hm])
    simp [linFor, List.countP_append, countP_versionMatches, hv', ih hrest]

theorem countP_linFor {pinfo : FileInfo} {v : String} {atree : ScanTree} :
    ∀ l : List (String × ScanTree), (l.map Prod.fst).Nodup → (v, atree) ∈ l →
      (linFor pinfo l).countP (fun e => e.version == v)
        = atree.countP (fun ai => ai.2.name == pinfo.name) := by
  intro l
  induction l with
  | nil => intro _ h; cases h
  | cons hd rest ih =>
    intro hnd hmem
    rcases hd with ⟨v', t'⟩
    simp only [List.map_cons, List.nodup_cons] at hnd
    rcases List.mem_cons.mp hmem with heq | htail
    · cases Prod.mk.inj heq with
      | intro h1 h2 =>
        subst h1; subst h2
        have hz : v ∉ rest.map Prod.fst := hnd.1
        simp [linFor, List.countP_append, countP_versionMatches,
          countP_linFor_zero v rest hz]
    · have hv' : v' ≠ v := by
        intro he
        exact hnd.1 (he ▸ List.mem_map.mpr ⟨(v, atree), htail, rfl⟩)
      simp [linFor, List.countP_append, countP_versionMatches, hv', ih hnd.2 htail]

/-! Helper lemmas about the duplicate-grouping map. -/

theorem addToGroup_prop (P : String → Location → Prop) :
    ∀ (acc : List (String × List Location)) (h : String) (loc : Location),
      (∀ k ls, (k, ls) ∈ acc → ∀ l ∈ ls, P k l) → P h loc →
      ∀ k ls, (k, ls) ∈ addToGroup acc h loc → ∀ l ∈ ls, P k l := by
  intro acc
  induction acc with
  | nil =>
    intro h loc _ hP k ls hmem l hl
    simp only [addToGroup, List.mem_singleton] at hmem
    injection hmem with h1 h2
    subst h1; subst h2
    rw [List.mem_singleton] at hl
    subst hl
    exact hP
  | cons hd rest ih =>
    intro h loc hacc hP k ls hmem l hl
    rcases hd with ⟨hk, hls⟩
    simp only [addToGroup] at hmem
    by_cases he : hk = h
    · rw [if_pos he] at hmem
      rcases List.mem_cons.mp hmem with heq | htail
      · injection heq with h1 h2
        subst h1; subst h2
        rcases List.mem_append.mp hl with hin | hone
        · exact hacc _ _ (List.mem_cons_self _ _) l hin
        · rw [List.mem_singleton] at hone
          subst hone
          rw [he]
          exact hP
      · exact hacc _ _ (List.mem_cons_of_mem _ htail) l hl
    · rw [if_neg he] at hmem
      rcases List.mem_cons.mp hmem with heq | htail
      · injection heq with h1 h2
        subst h1; subst h2
        exact hacc _ _ (List.mem_cons_self _ _) l hl
      · exact ih h loc (fun k2 ls2 hm => hacc _ _ (List.mem_cons_of_mem _ hm)) hP
          k ls htail l hl

theorem groupFold_prop (P : String → Location → Prop) :
    ∀ (entries : List (String × Location)) (acc : List (String × List Location)),
      (∀ k ls, (k, ls) ∈ acc → ∀ l ∈ ls, P k l) → (∀ e ∈ entries, P e.1 e.2) →
      ∀ k ls, (k, ls) ∈ entries.foldl (fun a e => addToGroup a e.1 e.2) acc →
        ∀ l ∈ ls, P k l := by
  intro entries
  induction entries with
  | nil => intro acc hacc _ k ls hmem; exact hacc k ls hmem
  | cons e rest ih =>
    intro acc hacc hE k ls hmem
    simp only [List.foldl_cons] at hmem
    exact ih (addToGroup acc e.1 e.2)
      (addToGroup_prop P acc e.1 e.2 hacc (hE e (List.mem_cons_self _ _)))
      (fun e' he' => hE e' (List.mem_cons_of_mem _ he')) k ls hmem

theorem groupByHash_prop (P : String → Location → Prop) (entries : List (String × Location))
    (hE : ∀ e ∈ entries, P e.1 e.2) :
    ∀ k ls, (k, ls) ∈ groupByHash entries → ∀ l ∈ ls, P k l :=
  groupFold_prop P entries [] (by intro k ls h; cases h) hE

/-! Helper lemmas about `pySuffix` (the model of Python's `Path.suffix`). -/

theorem pySuffixAux_none_no_dot : ∀ cs, pySuffixAux cs = none → '.' ∉ cs := by
  intro cs
  induction cs with
  | nil => intro _ h; cases h
  | cons c rest ih =>
    intro h hmem
    cases hr : pySuffixAux rest with
    | some s => simp [pySuffixAux, hr] at h
    | none =>
      simp only [pySuffixAux, hr] at h
      by_cases hc : c = '.'
      · rw [if_pos hc] at h; cases h
      · rcases List.mem_cons.mp hmem with he | ht
        · exact hc he.symm
        · exact ih hr ht

theorem pySuffixAux_spec : ∀ cs s, pySuffixAux cs = some s →
    ∃ pre t, cs = pre ++ s ∧ s = '.' :: t ∧ '.' ∉ t := by
  intro cs
  induction cs with
  | nil => intro s h; cases h
  | cons c rest ih =>
    intro s h
    cases hr : pySuffixAux rest with
    | some s2 =>
      simp only [pySuffixAux, hr] at h
      injection h with hs
      subst hs
      obtain ⟨pre, t, hcs, hst, hnd⟩ := ih s2 hr
      exact ⟨c :: pre, t, by simp [hcs], hst, hnd⟩
    | none =>
      simp only [pySuffixAux, hr] at h
      by_cases hc : c = '.'
      · rw [if_pos hc] at h
        injection h with hs
        subst hs
        exact ⟨[], rest, by simp, by rw [hc], pySuffixAux_none_no_dot rest hr⟩
      · rw [if_neg hc] at h; cases h

theorem pySuffix_spec (name : String) :
    pySuffix name = "" ∨
      ∃ pre t, pre ≠ [] ∧ name.data = pre ++ '.' :: t ∧
        (pySuffix name).data = '.' :: t ∧ '.' ∉ t ∧ t ≠ [] := by
  cases hx : pySuffixAux name.data with
  | none => left; simp [pySuffix, hx]
  | some s =>
    by_cases hc : s.length < name.data.length ∧ 2 ≤ s.length
    · right
      obtain ⟨pre, t, hcs, hst, hnd⟩ := pySuffixAux_spec _ _ hx
      subst hst
      refine ⟨pre, t, ?_, hcs, ?_, hnd, ?_⟩
      · intro hpre
        subst hpre
        simp only [List.nil_append] at hcs
        exact absurd hc.1 (by rw [hcs]; exact lt_irrefl _)
      · simp only [pySuffix, hx]
        rw [if_pos hc]
      · intro ht
        subst ht
        exact absurd hc.2 (by decide)
    · left
      simp only [pySuffix, hx]
      rw [if_neg hc]

/-! The claims. -/

/-- C1: the process exit code is `0` if and only if the analysis produced
no critical missing item, where a missing item is critical exactly when
its descriptor contains `"core"` or `"security"`; the exit code is a
function of the missing-component check alone, so duplicates and
non-critical missing items never by themselves yield a nonzero exit. -/
theorem c1_exit_zero_iff_no_critical_missing
    (H : List Nat → String) (pr : Root) (ar : List (String × Root))
    (ex : String → Bool) (ts : String) :
    (analyze H pr ar ex ts).missing = find_missing ex ∧
    (analyze H pr ar ex ts).critical_missing = (find_missing ex).filter isCritical ∧
    (main_exit (analyze H pr ar ex ts) = 0 ↔
      ∀ m ∈ (analyze H pr ar ex ts).missing, isCritical m = false) := by
  refine ⟨rfl, rfl, ?_⟩
  show (if (find_missing ex).filter isCritical = [] then 0 else 1) = 0 ↔
    ∀ m ∈ find_missing ex, isCritical m = false
  by_cases hf : (find_missing ex).filter isCritical = []
  · rw [if_pos hf]
    constructor
    · intro _ m hm
      cases hcrit : isCritical m with
      | false => rfl
      | true => exact absurd hcrit (List.filter_eq_nil_iff.mp hf m hm)
    · intro _; rfl
  · rw [if_neg hf]
    constructor
    · intro h01; exact absurd h01 (by decide)
    · intro hall
      exfalso
      apply hf
      refine List.filter_eq_nil_iff.mpr ?_
      intro m hm
      rw [hall m hm]
      simp

/-- C1 witness: with every expected path present the analyzer exits `0`. -/
theorem c1_witness :
    main_exit (analyze (fun _ => "d") ⟨"p", true, []⟩ [] (fun _ => true) "t") = 0 :=
  (c1_exit_zero_iff_no_critical_missing (fun _ => "d") ⟨"p", true, []⟩ [] (fun _ => true)
    "t").2.2.mpr (by decide)

/-- C5 counterexample: the report embeds the run's wall-clock timestamp
(`datetime.now().isoformat()`), so two runs over the same unchanged input
trees produce different structured-report content — the report is not a
function of the scanned corpus alone. -/
theorem c5_counterexample_report_depends_on_timestamp :
    analyze (fun _ => "d") ⟨"p", true, []⟩ [] (fun _ => true) "2025-01-01T00:00:00"
      ≠ analyze (fun _ => "d") ⟨"p", true, []⟩ [] (fun _ => true) "2025-01-01T00:00:01" := by
  decide

/-- The report with its timestamp field blanked. -/
def dropTimestamp (r : Report) : Report :=
  { r with timestamp := "" }

/-- C5 amended: the structured report is a deterministic function of the
scanned input corpus and of the run timestamp; every field other than the
timestamp depends only on the corpus. -/
theorem c5_amended_deterministic_given_timestamp
    (H : List Nat → String) (pr : Root) (ar : List (String × Root))
    (ex : String → Bool) (ts ts2 : String) :
    dropTimestamp (analyze H pr ar ex ts) = dropTimestamp (analyze H pr ar ex ts2) := rfl

/-- C7: scanning a non-existent root yields an empty tree rather than an
error, and the analysis over the remaining trees is unchanged: replacing
an absent archive root by an existing empty one gives the same report. -/
theorem c7_absent_root_scans_empty (H : List Nat → String) (r : Root)
    (h : r.present = false) :
    scan_directory H r = [] ∧
    ∀ (pr : Root) (pre post : List (String × Root)) (v : String)
      (ex : String → Bool) (ts : String),
      analyze H pr (pre ++ (v, r) :: post) ex ts
        = analyze H pr (pre ++ (v, (⟨r.rootPath, true, []⟩ : Root)) :: post) ex ts := by
  have hscan : scan_directory H r = [] := by simp [scan_directory, h]
  have hscan2 : scan_directory H (⟨r.rootPath, true, []⟩ : Root) = [] := rfl
  refine ⟨hscan, ?_⟩
  intro pr pre post v ex ts
  simp only [analyze, List.map_append, List.map_cons, hscan, hscan2]

/-- C7 witness: a concrete absent root scans empty and is interchangeable
with an empty existing root in a full analysis. -/
theorem c7_witness :
    ((⟨"a", false, []⟩ : Root).present = false) ∧
    scan_directory (fun _ => "d") ⟨"a", false, []⟩ = [] ∧
    analyze (fun _ => "d") ⟨"p", true, []⟩ ([] ++ ("v1", (⟨"a", false, []⟩ : Root)) :: [])
        (fun _ => true) "t"
      = analyze (fun _ => "d") ⟨"p", true, []⟩ ([] ++ ("v1", (⟨"a", true, []⟩ : Root)) :: [])
        (fun _ => true) "t" := by
  refine ⟨rfl, (c7_absent_root_scans_empty (fun _ => "d") ⟨"a", false, []⟩ rfl).1, ?_⟩
  exact (c7_absent_root_scans_empty (fun _ => "d") ⟨"a", false, []⟩ rfl).2
    ⟨"p", true, []⟩ [] [] "v1" (fun _ => true) "t"

/-- C8: the report's embedded samples are capped (at most 50 duplicate
groups and 20 lineage entries), while every summary count equals the
exact full total of the corresponding analysis result. -/
theorem c8_sample_caps_and_exact_totals
    (H : List Nat → String) (pr : Root) (ar : List (String × Root))
    (ex : String → Bool) (ts : String) :
    (analyze H pr ar ex ts).duplicates.length ≤ 50 ∧
    (analyze H pr ar ex ts).lineage_sample.length ≤ 20 ∧
    (analyze H pr ar ex ts).duplicates
      = (find_duplicates (scan_directory H pr)
          (ar.map (fun vr => (vr.1, scan_directory H vr.2)))).take 50 ∧
    (analyze H pr ar ex ts).duplicates_found
      = (find_duplicates (scan_directory H pr)
          (ar.map (fun vr => (vr.1, scan_directory H vr.2)))).length ∧
    (analyze H pr ar ex ts).lineage_sample
      = (trace_lineage (scan_directory H pr)
          (ar.map (fun vr => (vr.1, scan_directory H vr.2)))).take 20 ∧
    (analyze H pr ar ex ts).files_with_lineage
      = (trace_lineage (scan_directory H pr)
          (ar.map (fun vr => (vr.1, scan_directory H vr.2)))).length ∧
    (analyze H pr ar ex ts).missing = find_missing ex ∧
    (analyze H pr ar ex ts).missing_components = (find_missing ex).length ∧
    (analyze H pr ar ex ts).production_files = (scan_directory H pr).length ∧
    (analyze H pr ar ex ts).archive_versions = ar.length ∧
    (analyze H pr ar ex ts).archive_files
      = ((ar.map (fun vr => (vr.1, scan_directory H vr.2))).map
          (fun va => va.2.length)).sum := by
  refine ⟨?_, ?_, rfl, rfl, rfl, rfl, rfl, rfl, rfl, ?_, rfl⟩
  · show ((find_duplicates _ _).take 50).length ≤ 50
    rw [List.length_take]
    exact Nat.min_le_left _ _
  · show ((trace_lineage _ _).take 20).length ≤ 20
    rw [List.length_take]
    exact Nat.min_le_left _ _
  · show (ar.map (fun vr => (vr.1, scan_directory H vr.2))).length = ar.length
    rw [List.length_map]

/-- Every entry of the archive half of the hash map comes from an archive
file with a non-empty digest. -/
theorem mem_dupEntries :
    ∀ (l : List (String × ScanTree)) (e : String × Location), e ∈ dupEntries l →
      ∃ ver tree pi, (ver, tree) ∈ l ∧ pi ∈ tree ∧ pi.2.hash ≠ "" ∧
        e = (pi.2.hash, (⟨ver, pi.1⟩ : Location)) := by
  intro l
  induction l with
  | nil => intro e h; cases h
  | cons hd rest ih =>
    intro e h
    rcases hd with ⟨ver, files⟩
    simp only [dupEntries] at h
    rcases List.mem_append.mp h with hf | hr
    · obtain ⟨pi, hpi, hif⟩ := List.mem_filterMap.mp hf
      by_cases hh : pi.2.hash = ""
      · rw [if_pos hh] at hif; cases hif
      · rw [if_neg hh] at hif
        injection hif with he
        exact ⟨ver, files, pi, List.mem_cons_self _ _, hpi, hh, he.symm⟩
    · obtain ⟨v2, t2, pi, hm, hpi, hh, he⟩ := ih e hr
      exact ⟨v2, t2, pi, List.mem_cons_of_mem _ hm, hpi, hh, he⟩

/-- A duplicate-group location is backed by a file of the corpus with a
non-empty digest, either in the production tree or in an archive tree. -/
def locBacked (prod : ScanTree) (archive : List (String × ScanTree)) (loc : Location) : Prop :=
  (loc.source = "production" ∧ ∃ info, (loc.path, info) ∈ prod ∧ info.hash ≠ "") ∨
  (∃ ver tree info, (ver, tree) ∈ archive ∧ loc.source = ver ∧
    (loc.path, info) ∈ tree ∧ info.hash ≠ "")

/-- C4: a file whose content could not be read gets an empty digest, and
every location of every duplicate group is backed by a file with a
non-empty digest — so unreadable files appear in no group — and every
group lists at least two locations. -/
theorem c4_unreadable_files_never_in_duplicate_groups
    (H : List Nat → String) (prod : ScanTree) (archive : List (String × ScanTree)) :
    compute_file_hash H none = "" ∧
    ∀ g ∈ find_duplicates prod archive,
      2 ≤ g.locations.length ∧ ∀ loc ∈ g.locations, locBacked prod archive loc := by
  refine ⟨rfl, ?_⟩
  intro g hg
  unfold find_duplicates at hg
  obtain ⟨⟨k, ls⟩, hmem, hsome⟩ := List.mem_filterMap.mp hg
  by_cases hlen : 1 < ls.length
  · rw [if_pos hlen] at hsome
    injection hsome with hgv
    subst hgv
    refine ⟨hlen, ?_⟩
    intro loc hloc
    refine groupByHash_prop (fun _ l => locBacked prod archive l)
      (prodEntries prod ++ dupEntries archive) ?_ k ls hmem loc hloc
    intro e he
    rcases List.mem_append.mp he with hp | ha
    · obtain ⟨pi, hpi, hif⟩ := List.mem_filterMap.mp hp
      by_cases hh : pi.2.hash = ""
      · rw [if_pos hh] at hif; cases hif
      · rw [if_neg hh] at hif
        injection hif with he2
        subst he2
        left
        exact ⟨rfl, pi.2, by simpa using hpi, hh⟩
    · obtain ⟨ver, tree, pi, hm, hpi, hh, he2⟩ := mem_dupEntries archive e ha
      subst he2
      right
      exact ⟨ver, tree, pi.2, hm, rfl, by simpa using hpi, hh⟩
  · rw [if_neg hlen] at hsome
    cases hsome

/-- C4 witness: two identical production files form one group whose
locations are all backed by non-empty-digest files. -/
theorem c4_witness :
    ((⟨"h", [⟨"production", "a"⟩, ⟨"production", "b"⟩]⟩ : DuplicateGroup)
        ∈ find_duplicates
            [("a", ⟨"a", "a", 0, "h", "", "t"⟩), ("b", ⟨"b", "b", 0, "h", "", "t"⟩)] []) ∧
    compute_file_hash (fun _ => "d") none = "" ∧
    2 ≤ (⟨"h", [⟨"production", "a"⟩, ⟨"production", "b"⟩]⟩ : DuplicateGroup).locations.length ∧
    ∀ loc ∈ (⟨"h", [⟨"production", "a"⟩, ⟨"production", "b"⟩]⟩ : DuplicateGroup).locations,
      locBacked [("a", ⟨"a", "a", 0, "h", "", "t"⟩), ("b", ⟨"b", "b", 0, "h", "", "t"⟩)] [] loc := by
  refine ⟨by decide, ?_, ?_, ?_⟩
  · exact (c4_unreadable_files_never_in_duplicate_groups (fun _ => "d")
      [("a", ⟨"a", "a", 0, "h", "", "t"⟩), ("b", ⟨"b", "b", 0, "h", "", "t"⟩)] []).1
  · exact ((c4_unreadable_files_never_in_duplicate_groups (fun _ => "d")
      [("a", ⟨"a", "a", 0, "h", "", "t"⟩), ("b", ⟨"b", "b", 0, "h", "", "t"⟩)] []).2
      _ (by decide)).1
  · exact ((c4_unreadable_files_never_in_duplicate_groups (fun _ => "d")
      [("a", ⟨"a", "a", 0, "h", "", "t"⟩), ("b", ⟨"b", "b", 0, "h", "", "t"⟩)] []).2
      _ (by decide)).2

/-- C6: a production file with no same-named file in any archive version
is absent from the lineage map altogether; moreover no lineage-map value
is ever an empty list. -/
theorem c6_no_namesake_absent_from_lineage
    (prod : ScanTree) (archive : List (String × ScanTree)) (ppath : String)
    (hno : ∀ pinfo, (ppath, pinfo) ∈ prod →
      ∀ ver atree, (ver, atree) ∈ archive → ∀ ap ai, (ap, ai) ∈ atree →
        ai.name ≠ pinfo.name) :
    ∀ pr ∈ trace_lineage prod archive, pr.1 ≠ ppath ∧ pr.2 ≠ [] := by
  intro pr hpr
  unfold trace_lineage at hpr
  obtain ⟨⟨pp, pinfo⟩, hmem, hsome⟩ := List.mem_filterMap.mp hpr
  by_cases he : (linFor pinfo (sortByKey archive)).isEmpty = true
  · rw [if_pos he] at hsome; cases hsome
  · rw [if_neg he] at hsome
    injection hsome with hpr2
    subst hpr2
    constructor
    · intro hpe
      apply he
      have hnil : linFor pinfo (sortByKey archive) = [] := by
        refine linFor_nil_of_no_match _ ?_
        intro ver atree hva ap ai hai
        exact hno pinfo (hpe ▸ hmem) ver atree
          ((perm_sortByKey archive).mem_iff.mp hva) ap ai hai
      rw [hnil]; rfl
    · intro hnil
      apply he
      show (linFor pinfo (sortByKey archive)).isEmpty = true
      rw [show linFor pinfo (sortByKey archive) = [] from hnil]
      rfl

/-- C6 witness: in a corpus where only the file named `x` has an archive
namesake, the single lineage-map entry is keyed by `x`, not by the
unmatched file `p`, and its value is a nonempty list. -/
theorem c6_witness :
    (("x", [(⟨"v1", "d/x", true⟩ : LineageEntry)]) : String × List LineageEntry).1 ≠ "p" ∧
    (("x", [(⟨"v1", "d/x", true⟩ : LineageEntry)]) : String × List LineageEntry).2 ≠ [] := by
  refine c6_no_namesake_absent_from_lineage
    [("p", (⟨"p", "p", 0, "hp", "", "t"⟩ : FileInfo)),
     ("x", (⟨"x", "x", 0, "h", "", "t"⟩ : FileInfo))]
    [("v1", [("d/x", (⟨"d/x", "x", 0, "h", "", "t"⟩ : FileInfo))])] "p" ?_ _ (by decide)
  intro pinfo hmem ver atree hva ap ai hai
  rcases List.mem_cons.mp hmem with h | h
  · injection h with h1 h2
    subst h2
    rw [List.mem_singleton] at hva
    injection hva with h3 h4
    subst h4
    rw [List.mem_singleton] at hai
    injection hai with h5 h6
    subst h6
    decide
  · rw [List.mem_singleton] at h
    injection h with h1 h2
    exact absurd h1 (by decide)

/-- C2 counterexample: two unreadable same-named files (both digests
empty) are not excluded from lineage matching, and the recorded
`hash_match` is `true` — an empty digest does match another empty
digest. -/
theorem c2_counterexample_empty_digest_content_match :
    (get_file_info (fun _ => "d") ⟨"a", 0, none, "t"⟩).hash = "" ∧
    (get_file_info (fun _ => "d") ⟨"b/a", 0, none, "t"⟩).hash = "" ∧
    trace_lineage [("a", get_file_info (fun _ => "d") ⟨"a", 0, none, "t"⟩)]
        [("v1", [("b/a", get_file_info (fun _ => "d") ⟨"b/a", 0, none, "t"⟩)])]
      = [("a", [⟨"v1", "b/a", true⟩])] := by
  decide

/-- C2 amended: the Lineage Tracer records an entry for every same-named
archive file regardless of digests, and `hash_match` is plain string
equality of the two digests — empty digests participate and two empty
digests count as a match. -/
theorem c2_amended_plain_hash_equality
    (prod : ScanTree) (archive : List (String × ScanTree))
    (ppath : String) (pinfo : FileInfo) (ver : String) (atree : ScanTree)
    (apath : String) (ainfo : FileInfo)
    (hp : (ppath, pinfo) ∈ prod) (hv : (ver, atree) ∈ archive)
    (ha : (apath, ainfo) ∈ atree) (hname : ainfo.name = pinfo.name) :
    ∃ entries, (ppath, entries) ∈ trace_lineage prod archive ∧
      (⟨ver, apath, pinfo.hash == ainfo.hash⟩ : LineageEntry) ∈ entries ∧
      ((pinfo.hash == ainfo.hash) = true ↔ pinfo.hash = ainfo.hash) := by
  have hsv : (ver, atree) ∈ sortByKey archive := (perm_sortByKey archive).mem_iff.mpr hv
  have hentry := mem_linFor (sortByKey archive) hsv ha hname
  refine ⟨linFor pinfo (sortByKey archive), ?_, hentry, beq_iff_eq⟩
  unfold trace_lineage
  refine List.mem_filterMap.mpr ⟨(ppath, pinfo), hp, ?_⟩
  have hne : (linFor pinfo (sortByKey archive)).isEmpty = false := by
    cases hl : linFor pinfo (sortByKey archive) with
    | nil => rw [hl] at hentry; cases hentry
    | cons a b => rfl
  show (if (linFor pinfo (sortByKey archive)).isEmpty = true then none
    else some (ppath, linFor pinfo (sortByKey archive)))
      = some (ppath, linFor pinfo (sortByKey archive))
  rw [hne]
  simp

/-- C2 amended witness: a concrete corpus where both digests are empty
still yields a lineage entry with a (true) plain-equality match flag. -/
theorem c2_amended_witness :
    ∃ entries, ("p", entries) ∈ trace_lineage
        [("p", (⟨"p", "p", 0, "", "", "t"⟩ : FileInfo))]
        [("v1", [("d/p", (⟨"d/p", "p", 0, "", "", "t"⟩ : FileInfo))])] ∧
      (⟨"v1", "d/p",
          (⟨"p", "p", 0, "", "", "t"⟩ : FileInfo).hash
            == (⟨"d/p", "p", 0, "", "", "t"⟩ : FileInfo).hash⟩ : LineageEntry) ∈ entries ∧
      (((⟨"p", "p", 0, "", "", "t"⟩ : FileInfo).hash
          == (⟨"d/p", "p", 0, "", "", "t"⟩ : FileInfo).hash) = true ↔
        (⟨"p", "p", 0, "", "", "t"⟩ : FileInfo).hash
          = (⟨"d/p", "p", 0, "", "", "t"⟩ : FileInfo).hash) :=
  c2_amended_plain_hash_equality
    [("p", (⟨"p", "p", 0, "", "", "t"⟩ : FileInfo))]
    [("v1", [("d/p", (⟨"d/p", "p", 0, "", "", "t"⟩ : FileInfo))])]
    "p" (⟨"p", "p", 0, "", "", "t"⟩ : FileInfo) "v1"
    [("d/p", (⟨"d/p", "p", 0, "", "", "t"⟩ : FileInfo))]
    "d/p" (⟨"d/p", "p", 0, "", "", "t"⟩ : FileInfo)
    (by decide) (by decide) (by decide) (by decide)

/-- C3 counterexample: an archive version holding two files named like
the production file contributes two lineage entries for that single
`(production_path, archive_version)` pair — no single "last encountered"
entry is selected. -/
theorem c3_counterexample_multiple_entries_per_version :
    trace_lineage [("a.txt", (⟨"a.txt", "a.txt", 1, "h", ".txt", "t"⟩ : FileInfo))]
        [("v1", [("x/a.txt", (⟨"x/a.txt", "a.txt", 1, "h1", ".txt", "t"⟩ : FileInfo)),
                 ("y/a.txt", (⟨"y/a.txt", "a.txt", 2, "h2", ".txt", "t"⟩ : FileInfo))])]
      = [("a.txt", [⟨"v1", "x/a.txt", false⟩, ⟨"v1", "y/a.txt", false⟩])] ∧
    ([(⟨"v1", "x/a.txt", false⟩ : LineageEntry),
      ⟨"v1", "y/a.txt", false⟩].countP (fun e => e.version == "v1")) = 2 := by
  decide

/-- C3 amended: for each production file present in the lineage map and
each archive version, the number of entries carrying that version equals
the number of same-named files in that version's tree — one entry per
matching archive file, in scan order, rather than at most one. -/
theorem c3_amended_entry_per_matching_file
    (prod : ScanTree) (archive : List (String × ScanTree))
    (ppath : String) (entries : List LineageEntry) (v : String) (atree : ScanTree)
    (hmem : (ppath, entries) ∈ trace_lineage prod archive)
    (hnd : (archive.map Prod.fst).Nodup)
    (hv : (v, atree) ∈ archive) :
    ∃ pinfo, (ppath, pinfo) ∈ prod ∧
      entries.countP (fun e => e.version == v)
        = atree.countP (fun ai => ai.2.name == pinfo.name) := by
  unfold trace_lineage at hmem
  obtain ⟨⟨pp, pinfo⟩, hp, hsome⟩ := List.mem_filterMap.mp hmem
  by_cases he : (linFor pinfo (sortByKey archive)).isEmpty = true
  · rw [if_pos he] at hsome; cases hsome
  · rw [if_neg he] at hsome
    injection hsome with hpair
    injection hpair with h1 h2
    subst h1
    subst h2
    refine ⟨pinfo, hp, ?_⟩
    have hndS : ((sortByKey archive).map Prod.fst).Nodup :=
      ((perm_sortByKey archive).map Prod.fst).nodup_iff.mpr hnd
    have hvS : (v, atree) ∈ sortByKey archive := (perm_sortByKey archive).mem_iff.mpr hv
    exact countP_linFor (sortByKey archive) hndS hvS

/-- C3 amended witness: concrete corpus with two same-named files in one
version, whose lineage count for that version is exactly two. -/
theorem c3_amended_witness :
    ∃ pinfo, ("a.txt", pinfo) ∈
        [("a.txt", (⟨"a.txt", "a.txt", 1, "h", ".txt", "t"⟩ : FileInfo))] ∧
      ([(⟨"v1", "x/a.txt", false⟩ : LineageEntry),
        ⟨"v1", "y/a.txt", false⟩].countP (fun e => e.version == "v1"))
        = ([("x/a.txt", (⟨"x/a.txt", "a.txt", 1, "h1", ".txt", "t"⟩ : FileInfo)),
            ("y/a.txt", (⟨"y/a.txt", "a.txt", 2, "h2", ".txt", "t"⟩ : FileInfo))].countP
            (fun ai => ai.2.name == pinfo.name)) :=
  c3_amended_entry_per_matching_file
    [("a.txt", (⟨"a.txt", "a.txt", 1, "h", ".txt", "t"⟩ : FileInfo))]
    [("v1", [("x/a.txt", (⟨"x/a.txt", "a.txt", 1, "h1", ".txt", "t"⟩ : FileInfo)),
             ("y/a.txt", (⟨"y/a.txt", "a.txt", 2, "h2", ".txt", "t"⟩ : FileInfo))])]
    "a.txt" [⟨"v1", "x/a.txt", false⟩, ⟨"v1", "y/a.txt", false⟩] "v1"
    [("x/a.txt", (⟨"x/a.txt", "a.txt", 1, "h1", ".txt", "t"⟩ : FileInfo)),
     ("y/a.txt", (⟨"y/a.txt", "a.txt", 2, "h2", ".txt", "t"⟩ : FileInfo))]
    (by decide) (by decide) (by decide)

/-- Modelled from the spec: the `extension` field as §3 of the
specification words it — "lowercase suffix including leading dot, or
empty" — i.e. the suffix with every character lowercased. -/
def specExtension (name : String) : String :=
  String.mk ((pySuffix name).data.map Char.toLower)

/-- C9 counterexample: the code stores `Path.suffix` verbatim, so a file
named `A.TXT` gets extension `.TXT`, not the lowercase suffix `.txt`. -/
theorem c9_counterexample_extension_not_lowercased :
    (get_file_info (fun _ => "d") ⟨"A.TXT", 5, some [65], "t"⟩).extension = ".TXT" ∧
    specExtension "A.TXT" = ".txt" ∧
    (get_file_info (fun _ => "d") ⟨"A.TXT", 5, some [65], "t"⟩).extension
      ≠ specExtension "A.TXT" := by
  decide

/-- C9 amended: the `extension` field is the file name's suffix exactly
as written (case preserved): either empty, or the run from the name's
last dot — a leading dot followed by at least one character, the dot not
being the name's first character. -/
theorem c9_amended_extension_verbatim_suffix (H : List Nat → String) (f : RawFile) :
    (get_file_info H f).extension = pySuffix (lastComponent f.relPath) ∧
    (pySuffix (lastComponent f.relPath) = "" ∨
      ∃ pre t, pre ≠ [] ∧ (lastComponent f.relPath).data = pre ++ '.' :: t ∧
        (pySuffix (lastComponent f.relPath)).data = '.' :: t ∧ '.' ∉ t ∧ t ≠ []) :=
  ⟨rfl, pySuffix_spec _⟩

/-- C10: a file is skipped exactly when some exclusion pattern occurs as
a substring of its full path string including the root prefix; hence a
root whose own path contains a pattern scans to an empty tree. -/
theorem c10_skip_iff_pattern_in_full_path (H : List Nat → String) (r : Root) :
    (∀ s, should_skip s = true ↔ ∃ p ∈ skip_patterns, strContains s p = true) ∧
    (r.present = true →
      ∀ pr, pr ∈ scan_directory H r ↔
        ∃ f ∈ r.entries, should_skip (r.rootPath ++ "/" ++ f.relPath) = false ∧
          pr = (f.relPath, get_file_info H f)) ∧
    (∀ p ∈ skip_patterns, strContains r.rootPath p = true → scan_directory H r = []) := by
  refine ⟨?_, ?_, ?_⟩
  · intro s
    simp [should_skip, List.any_eq_true]
  · intro hpres pr
    rw [scan_directory, if_pos hpres]
    simp only [List.mem_map, List.mem_filter, Bool.not_eq_true']
    constructor
    · rintro ⟨f, ⟨hf, hskip⟩, heq⟩
      exact ⟨f, hf, hskip, heq.symm⟩
    · rintro ⟨f, hf, hskip, heq⟩
      exact ⟨f, ⟨hf, hskip⟩, heq.symm⟩
  · intro p hp hc
    rw [scan_directory]
    cases hpres : r.present with
    | false => simp
    | true =>
      rw [if_pos rfl]
      have hfil : r.entries.filter
          (fun f => !(should_skip (r.rootPath ++ "/" ++ f.relPath))) = [] := by
        refine List.filter_eq_nil_iff.mpr ?_
        intro f _
        have hfull : strContains (r.rootPath ++ "/" ++ f.relPath) p = true :=
          strContains_append _ _ _ (strContains_append _ _ _ hc)
        have hskip : should_skip (r.rootPath ++ "/" ++ f.relPath) = true :=
          List.any_eq_true.mpr ⟨p, hp, hfull⟩
        simp [hskip]
      rw [hfil]
      rfl

/-- C10 witness: a path containing `.git` is skipped, and a root whose
own path contains `.git` scans to an empty tree despite holding a file. -/
theorem c10_witness :
    should_skip "repo/.git/config" = true ∧
    scan_directory (fun _ => "d") ⟨"work/.git", true, [⟨"x.txt", 1, some [1], "t"⟩]⟩ = [] := by
  constructor
  · exact ((c10_skip_iff_pattern_in_full_path (fun _ => "d")
      ⟨"work/.git", true, [⟨"x.txt", 1, some [1], "t"⟩]⟩).1 "repo/.git/config").mpr
      ⟨".git", by decide, by decide⟩
  · exact (c10_skip_iff_pattern_in_full_path (fun _ => "d")
      ⟨"work/.git", true, [⟨"x.txt", 1, some [1], "t"⟩]⟩).2.2 ".git" (by decide) (by decide)

/-- C5 amended witness: at concrete inputs, the reports of two runs agree
once the timestamp field is blanked. -/
theorem c5_amended_witness :
    dropTimestamp (analyze (fun _ => "d") ⟨"p", true, []⟩ [] (fun _ => true) "t1")
      = dropTimestamp (analyze (fun _ => "d") ⟨"p", true, []⟩ [] (fun _ => true) "t2") :=
  c5_amended_deterministic_given_timestamp (fun _ => "d") ⟨"p", true, []⟩ [] (fun _ => true)
    "t1" "t2"

/-- C8 witness: the duplicate-sample cap at a concrete input. -/
theorem c8_witness :
    (analyze (fun _ => "d") ⟨"p", true, []⟩ [] (fun _ => true) "t").duplicates.length ≤ 50 :=
  (c8_sample_caps_and_exact_totals (fun _ => "d") ⟨"p", true, []⟩ [] (fun _ => true) "t").1

/-- C9 amended witness: a concrete file's extension is its verbatim
suffix. -/
theorem c9_amended_witness :
    (get_file_info (fun _ => "d") ⟨"A.TXT", 5, some [65], "t"⟩).extension
      = pySuffix (lastComponent "A.TXT") :=
  (c9_amended_extension_verbatim_suffix (fun _ => "d") ⟨"A.TXT", 5, some [65], "t"⟩).1
